import Mathlib

/-!
Verification of the wavegraph graph-assembly core (`wavegraph/graph.py` and
`wavegraph/tfcluster.py`) against its natural-language specification.

The Python code is shallowly embedded:
* `GridPoint`, `Cluster`, `CoherentWaveBurstGrid` become plain structures;
  numeric cluster values and timescales are modelled as exact rationals
  (the Python code computes with floats; the spec states the formulas in
  real arithmetic).
* Python dicts become an insertion-ordered key list together with a lookup
  function with the `defaultdict` default; Python sets of grid points become
  duplicate-free lists in insertion order (CPython's hash order is
  unspecified, so insertion order is one faithful resolution of it).
* Fallible code returns `Except PyErr`; `PyErr` names the Python exception
  class raised at the corresponding source line (`NameError` for reading an
  unbound local, `ValueError` for `max`/`min` of an empty sequence,
  `IndexError` for an out-of-range array subscript, `TypeError` for an
  unsupported operand).
* The recursion of `Graph._topological_sorting` is run on explicit fuel;
  the fuel supplied by `topologicalSorting` is a proven-sufficient bound,
  so the fuel-exhaustion branches are unreachable from the entry point.
-/

/-- A pixel of the time-frequency-scale grid (`GridPoint` namedtuple in
`tfcluster.py`): `scale_index` indexes `Grid.timescales`, `time_index` may be
negative, `freq_index` is a non-negative bin index. -/
structure GridPoint where
  scale_index : Nat
  time_index : Int
  freq_index : Nat
  deriving DecidableEq, Repr

/-- Per-node statistics stored by `Graph` (the `GraphInfo` namedtuple).
`numpy.std` is the square root of the population variance; we carry the
square `value_std_sq` so that the statistics stay inside exact rational
arithmetic.  Two standard deviations are equal iff their squares are, so
claims about `value_stdev` are stated on `value_std_sq`. -/
structure GraphInfo where
  value_avg : Rat
  value_std_sq : Rat
  deriving DecidableEq, Repr

/-- `Cluster` from `tfcluster.py`: parallel tuples of grid points and values
plus a metadata string.  `Cluster.__new__` performs no length check, so the
structure does not require `grid_points.length = values.length`. -/
structure Cluster where
  grid_points : List GridPoint
  values : List Rat
  metadata : String
  deriving DecidableEq, Repr

/-- Python exception classes that the embedded code can raise. -/
inductive PyErr where
  | nameError
  | valueError
  | typeError
  | indexError
  deriving DecidableEq, Repr

/-- `CoherentWaveBurstGrid`: constructed from a sampling frequency and a
range of dyadic scale exponents. -/
structure Grid where
  sampling_freq : Rat
  min_scale_exp : Nat
  max_scale_exp : Nat
  deriving DecidableEq, Repr

/-- `timescales = 2**arange(min_scale_exp, max_scale_exp+1) / sampling_freq`. -/
def Grid.timescales (g : Grid) : List Rat :=
  (List.range (g.max_scale_exp + 1 - g.min_scale_exp)).map
    (fun i => ((2 : Rat) ^ (g.min_scale_exp + i)) / g.sampling_freq)

/-- The `self.graph` defaultdict of `Graph.__init__`: an insertion-ordered
list of keys `ks` plus the lookup function `anc` whose default value is the
empty ancestor list (`defaultdict(set)`). -/
structure AncMap where
  ks : List GridPoint
  anc : GridPoint → List GridPoint

/-- `self.graph[p] = s` — dictionary assignment: registers the key (at the
end, if new) and replaces the stored ancestor set. -/
def setAnc (g : AncMap) (p : GridPoint) (s : List GridPoint) : AncMap :=
  ⟨if p ∈ g.ks then g.ks else g.ks ++ [p],
   fun q => if q = p then s else g.anc q⟩

/-- `self.graph[node].add(a)` — `defaultdict` lookup creates the key when
absent; `set.add` is a no-op on an already-present ancestor. -/
def addAnc (g : AncMap) (node a : GridPoint) : AncMap :=
  setAnc g node (if a ∈ g.anc node then g.anc node else g.anc node ++ [a])

/-- `numpy.mean`. -/
def numpyMean (l : List Rat) : Rat :=
  l.sum / (l.length : Rat)

/-- The square of `numpy.std` (population standard deviation, `ddof=0`):
the mean of the squared deviations from the mean. -/
def numpyStdSq (l : List Rat) : Rat :=
  (l.map (fun v => (v - numpyMean l) ^ 2)).sum / (l.length : Rat)

/-- The inner `for ancestor in self.graph[node]` loop of
`sorted_ancestors`, abstracted over the recursive call `visit`: each
ancestor still in the unvisited set is removed and recursively visited;
ancestors already retired are skipped (`except KeyError: pass`). Returns
the emitted nodes and the remaining unvisited set. -/
def ancLoop (visit : GridPoint → List GridPoint → List GridPoint × List GridPoint) :
    List GridPoint → List GridPoint → List GridPoint × List GridPoint
  | [], unv => ([], unv)
  | a :: rest, unv =>
    if a ∈ unv then
      let p1 := visit a (unv.erase a)
      let p2 := ancLoop visit rest p1.2
      (p1.1 ++ p2.1, p2.2)
    else ancLoop visit rest unv

/-- `sorted_ancestors(node)` of `Graph._topological_sorting`, with explicit
fuel for the recursion depth.  Each recursive call is guarded by removing
one node from the unvisited set, so any fuel exceeding the size of the
unvisited set makes the fuel-exhaustion branch unreachable. -/
def visitF (g : AncMap) : Nat → GridPoint → List GridPoint → List GridPoint × List GridPoint
  | 0, node, unv => ([node], unv)
  | f + 1, node, unv =>
    let p := ancLoop (visitF g f) (g.anc node) unv
    (p.1 ++ [node], p.2)

/-- The `while nodes_unvisited:` loop: pop a node (modelled as the first of
the list) and extend the output with `sorted_ancestors` of it.  Each
iteration removes at least the popped node, so fuel equal to the initial
size of the unvisited set suffices. -/
def outerLoopF (g : AncMap) : Nat → List GridPoint → List GridPoint
  | 0, _ => []
  | _ + 1, [] => []
  | f + 1, x :: rest =>
    let p := visitF g (rest.length + 1) x rest
    p.1 ++ outerLoopF g f p.2

/-- `Graph._topological_sorting`: `nodes_unvisited = set(self.graph)` is the
set of keys; the loops run with proven-sufficient fuel. -/
def topologicalSorting (g : AncMap) : List GridPoint :=
  outerLoopF g g.ks.dedup.length g.ks.dedup

/-- The `Graph` object after `__init__` finished: ancestor dictionary,
`point_info` statistics dictionary (`none` for points that accumulated no
values), the `head_nodes` set, and the topologically sorted node list. -/
structure Graph where
  graph : AncMap
  point_info : GridPoint → Option GraphInfo
  head_nodes : GridPoint → Bool
  sorted_list : List GridPoint

/-- Mutable state of the `for cluster in clusters` loop in `Graph.__init__`.
`lastNode` is the Python local variable `node`, which leaks from the inner
edge loop: it is unbound (`none`) until some cluster with at least two
points has been processed. -/
structure BuildState where
  graph : AncMap
  vals : GridPoint → List Rat
  heads : GridPoint → Bool
  lastNode : Option GridPoint

/-- The `for (grid_point, value) in izip(cluster_points, cluster.values)`
loop: append each value to the per-point accumulator list. -/
def registerValues (vals : GridPoint → List Rat) :
    List (GridPoint × Rat) → (GridPoint → List Rat)
  | [] => vals
  | (q, v) :: rest =>
    registerValues (fun p => if p = q then vals p ++ [v] else vals p) rest

/-- The `for (ancestor, node) in izip(cluster_points[:-1], cluster_points[1:])`
loop: record each adjacent pair as an ancestor edge. -/
def registerEdges (g : AncMap) : List (GridPoint × GridPoint) → AncMap
  | [] => g
  | (a, n) :: rest => registerEdges (addAnc g n a) rest

/-- One iteration of the cluster loop in `Graph.__init__`.  Empty clusters
are skipped.  Otherwise: the first point's ancestor set is assigned empty
(overwriting any previous contents), adjacent pairs are recorded as edges,
values are accumulated pairing points with values by `izip` (which
truncates to the shorter sequence), and `self.head_nodes.add(node)` reads
the leaked loop variable `node` — a `NameError` when no cluster so far had
two or more points, and the last point of the most recent such cluster
otherwise. -/
def processCluster (st : BuildState) (c : Cluster) : Except PyErr BuildState :=
  match c.grid_points with
  | [] => .ok st
  | p0 :: rest =>
    let g1 := setAnc st.graph p0 []
    let g2 := registerEdges g1 ((p0 :: rest).zip rest)
    let vals2 := registerValues st.vals ((p0 :: rest).zip c.values)
    let ln : Option GridPoint :=
      match rest.getLast? with
      | some q => some q
      | none => st.lastNode
    match ln with
    | none => .error PyErr.nameError
    | some n => .ok ⟨g2, vals2, fun q => if q = n then true else st.heads q, ln⟩

/-- The state at the top of `Graph.__init__`: empty dictionaries and sets,
and the loop variable `node` still unbound. -/
def buildInit : BuildState :=
  ⟨⟨[], fun _ => []⟩, fun _ => [], fun _ => false, none⟩

/-- `Graph.__init__(clusters)`: fold the cluster loop, then compute the
per-point statistics for every point that accumulated values, and run the
topological sort. -/
def build (clusters : List Cluster) : Except PyErr Graph :=
  match clusters.foldlM processCluster buildInit with
  | .error e => .error e
  | .ok st =>
    .ok ⟨st.graph,
      fun p =>
        match st.vals p with
        | [] => none
        | l => some ⟨numpyMean l, numpyStdSq l⟩,
      st.heads,
      topologicalSorting st.graph⟩

/-- `grid.timescales[i]` with the Python out-of-range behaviour. -/
def tsGet (grid : Grid) (i : Nat) : Except PyErr Rat :=
  match grid.timescales[i]? with
  | some t => .ok t
  | none => .error PyErr.indexError

/-- Fold of Python's `max` over a nonempty sequence: seed plus the rest. -/
def maxQ (x : Rat) (xs : List Rat) : Rat := xs.foldl max x

/-- Fold of Python's `min` over a nonempty sequence: seed plus the rest. -/
def minQ (x : Rat) (xs : List Rat) : Rat := xs.foldl min x

/-- Fold of Python's `max` over a nonempty sequence of naturals. -/
def maxN (x : Nat) (xs : List Nat) : Nat := xs.foldl max x

/-- The generator `node.time_index * grid.timescales[node.scale_index] for
node in ...`, evaluated left to right, propagating the first exception. -/
def timesList (grid : Grid) : List GridPoint → Except PyErr (List Rat)
  | [] => .ok []
  | p :: ps =>
    match tsGet grid p.scale_index with
    | .error e => .error e
    | .ok t =>
      match timesList grid ps with
      | .error e => .error e
      | .ok rs => .ok (((p.time_index : Rat) * t) :: rs)

/-- `Graph.span(grid)`: `max` over the empty node list raises `ValueError`;
otherwise the span index `floor(time_max / timescales[scale_index_max]) + 1`. -/
def span (g : Graph) (grid : Grid) : Except PyErr Int :=
  match g.sorted_list with
  | [] => .error PyErr.valueError
  | n :: ns =>
    let sMax := maxN n.scale_index (ns.map GridPoint.scale_index)
    match tsGet grid n.scale_index with
    | .error e => .error e
    | .ok t0 =>
      match timesList grid ns with
      | .error e => .error e
      | .ok rs =>
        match tsGet grid sMax with
        | .error e => .error e
        | .ok tm => .ok (Int.floor (maxQ ((n.time_index : Rat) * t0) rs / tm) + 1)

/-- `shift_clusters_to_zero_index(clusters, grid)` from `tfcluster.py`:
`max`/`min` over all points of all clusters raise `ValueError` when there
are no points at all; otherwise every point's `time_index` is decreased by
`index_shift_at_scale_max * 2**(scale_index_max - point.scale_index)`,
keeping values and metadata. -/
def shift_clusters_to_zero_index (clusters : List Cluster) (grid : Grid) :
    Except PyErr (List Cluster) :=
  match clusters.flatMap Cluster.grid_points with
  | [] => .error PyErr.valueError
  | q :: qs =>
    let sMax := maxN q.scale_index (qs.map GridPoint.scale_index)
    match tsGet grid q.scale_index with
    | .error e => .error e
    | .ok t0 =>
      match timesList grid qs with
      | .error e => .error e
      | .ok rs =>
        match tsGet grid sMax with
        | .error e => .error e
        | .ok tm =>
          let sh := Int.floor (minQ ((q.time_index : Rat) * t0) rs / tm)
          .ok (clusters.map (fun c =>
            ⟨c.grid_points.map (fun p =>
              { p with time_index := p.time_index - sh * ((2 : Int) ^ (sMax - p.scale_index)) }),
             c.values, c.metadata⟩))

/-- The boolean mask `self.to_numpyarray()['freq_index'] != 0` of
`Cluster.reject_pixels_at_zero_freq` (the record array pairs points with
values by `zip`, truncating to the shorter sequence). -/
def numpyFreqMask (c : Cluster) : List Bool :=
  (c.grid_points.zip c.values).map (fun pv => decide (pv.1.freq_index ≠ 0))

/-- `self.grid_points[indices]` where `indices` is a numpy boolean array:
Python tuples do not support ndarray subscripts, so this raises
`TypeError` ("tuple indices must be integers") for every input. -/
def tupleMaskIndex (_l : List GridPoint) (_mask : List Bool) :
    Except PyErr (List GridPoint) :=
  .error PyErr.typeError

/-- `Cluster.reject_pixels_at_zero_freq`: builds the frequency mask, then
subscripts the `grid_points` tuple with it (raising `TypeError`); even if
tuple masking worked, the subsequent two-argument `Cluster(...)` call lacks
the required `metadata` parameter and would raise `TypeError` as well. -/
def reject_pixels_at_zero_freq (c : Cluster) : Except PyErr Cluster :=
  match tupleMaskIndex c.grid_points (numpyFreqMask c) with
  | .error e => .error e
  | .ok _ => .error PyErr.typeError

/-- Edge relation of an ancestor map: `graphEdge g a x` iff `a` is a direct
ancestor of `x`. -/
def graphEdge (g : AncMap) (a x : GridPoint) : Prop := a ∈ g.anc x

/-- Acyclicity of an ancestor map: no node reaches itself through a
nonempty chain of ancestor edges. -/
def AcyclicMap (g : AncMap) : Prop :=
  ∀ x, ¬ Relation.TransGen (graphEdge g) x x

/-- The adjacent pairs `(cluster_points[i], cluster_points[i+1])` of one
cluster — its contributed ancestor edges. -/
def adjPairs (c : Cluster) : List (GridPoint × GridPoint) :=
  c.grid_points.zip (c.grid_points.drop 1)

/-- The union, over a batch of clusters, of the adjacent-pair ancestor
edges (as the specification describes the merged graph). -/
def unionEdge (clusters : List Cluster) (a b : GridPoint) : Prop :=
  ∃ c ∈ clusters, (a, b) ∈ adjPairs c

/-- Acyclicity of the unioned adjacent-pair edges of a batch. -/
def AcyclicClusters (clusters : List Cluster) : Prop :=
  ∀ x, ¬ Relation.TransGen (unionEdge clusters) x x

/-- `topoFrom g seen l`: walking `l` left to right, every node's ancestors
already occur in `seen` extended with the part of `l` walked so far — i.e.
`l` continues a topological order whose earlier part is `seen`. -/
def topoFrom (g : AncMap) : List GridPoint → List GridPoint → Prop
  | _, [] => True
  | seen, x :: rest => (∀ a ∈ g.anc x, a ∈ seen) ∧ topoFrom g (seen ++ [x]) rest

/-- A list is a valid topological order for `g`: every node's direct
ancestors appear strictly earlier in the list. -/
def IsTopoOrder (g : AncMap) (l : List GridPoint) : Prop := topoFrom g [] l

/-- The values contributed to point `p` by one cluster: the values paired
with occurrences of `p`, in order (pairing by `izip`, so truncating to the
shorter of the two sequences). -/
def clusterContribs (c : Cluster) (p : GridPoint) : List Rat :=
  (c.grid_points.zip c.values).filterMap
    (fun pv => if pv.1 = p then some pv.2 else none)

/-- The values `v1..vn` received by point `p` across a whole batch,
including repeated contributions from duplicate occurrences. -/
def contribs (clusters : List Cluster) (p : GridPoint) : List Rat :=
  (clusters.map (fun c => clusterContribs c p)).flatten

/-- The ancestors the specification assigns to `p`: the union over all
clusters of the predecessor of each occurrence of `p` at position `i ≥ 1`. -/
def claimAncestors (clusters : List Cluster) (p : GridPoint) : List GridPoint :=
  (clusters.map (fun c =>
    (adjPairs c).filterMap (fun pr => if pr.2 = p then some pr.1 else none))).flatten

/-- `scaleIndexMax` of the specification: maximum `scale_index` over a node
list (0 on the empty list; the claims only use it on nonempty lists). -/
def specScaleIndexMax (l : List GridPoint) : Nat :=
  maxN 0 (l.map GridPoint.scale_index)

/-- `timeMax` of the specification's `span` formula, with out-of-range
timescale lookups defaulted (the claims guard them by a range hypothesis). -/
def specTimeMax (g : Graph) (grid : Grid) : Rat :=
  match g.sorted_list with
  | [] => 0
  | n :: ns =>
    maxQ ((n.time_index : Rat) * grid.timescales.getD n.scale_index 0)
      (ns.map (fun p => (p.time_index : Rat) * grid.timescales.getD p.scale_index 0))

/-- The specification's span formula:
`floor(timeMax / grid.timescales[scaleIndexMax]) + 1`. -/
def specSpan (g : Graph) (grid : Grid) : Int :=
  Int.floor (specTimeMax g grid / grid.timescales.getD (specScaleIndexMax g.sorted_list) 0) + 1

/-- `timeMin` of the specification's shift formula: minimum of
`timeIndex * timescales[scaleIndex]` over all points of all clusters. -/
def specTimeMin (clusters : List Cluster) (grid : Grid) : Rat :=
  match clusters.flatMap Cluster.grid_points with
  | [] => 0
  | q :: qs =>
    minQ ((q.time_index : Rat) * grid.timescales.getD q.scale_index 0)
      (qs.map (fun p => (p.time_index : Rat) * grid.timescales.getD p.scale_index 0))

/-- The specification's shift: `floor(timeMin / timescales[scaleIndexMax])`. -/
def specShift (clusters : List Cluster) (grid : Grid) : Int :=
  Int.floor (specTimeMin clusters grid /
    grid.timescales.getD (specScaleIndexMax (clusters.flatMap Cluster.grid_points)) 0)

/-- A default `Graph` value, used only to extract the payload of a
successful `build` at concrete inputs. -/
def graphDefault : Graph := ⟨⟨[], fun _ => []⟩, fun _ => none, fun _ => false, []⟩

/-- Every recorded ancestor edge of `g` is one of the adjacent-pair edges
contributed by the batch `cs` (the built graph's edges are a subset of the
specification's unioned edges; the first-point reset only removes edges). -/
def EdgesSub (cs : List Cluster) (g : AncMap) : Prop :=
  ∀ a x, a ∈ g.anc x → unionEdge cs a x

/-- Every recorded ancestor is itself a key of the dictionary (reachability
closure of the built graph). -/
def AncInKeys (g : AncMap) : Prop :=
  ∀ x a, a ∈ g.anc x → a ∈ g.ks

/-- Concrete grid points for the evaluated counterexamples and witnesses. -/
def pA : GridPoint := ⟨0, 0, 0⟩

/-- Second concrete grid point. -/
def pB : GridPoint := ⟨0, 1, 0⟩

/-- Third concrete grid point. -/
def pC : GridPoint := ⟨0, 2, 0⟩

/-- Fourth concrete grid point. -/
def pD : GridPoint := ⟨0, 3, 0⟩

/-- The specification's own cycle example: cluster1 `[A,B]`, cluster2 `[B,A]`. -/
def cyclePairBatch : List Cluster :=
  [⟨[pA, pB], [1, 1], "c1"⟩, ⟨[pB, pA], [1, 1], "c2"⟩]

/-- A single cluster whose adjacent pairs form a genuine two-cycle that
survives the first-point reset. -/
def cycleTriBatch : List Cluster := [⟨[pA, pB, pA], [1, 2, 3], "c3"⟩]

/-- Batch in which `pB` first accumulates ancestor `pA` and is then the
first point of a later cluster. -/
def overwriteBatch : List Cluster :=
  [⟨[pA, pB], [1, 1], "c1"⟩, ⟨[pB, pC], [1, 1], "c2"⟩]

/-- A cluster with two grid points but a single value. -/
def mismatchedBatch : List Cluster := [⟨[pA, pB], [5], "m"⟩]

/-- The specification's two-cluster example `[A,B,C]`, `[A,B,D]`. -/
def specExampleBatch : List Cluster :=
  [⟨[pA, pB, pC], [1, 2, 3], "c1"⟩, ⟨[pA, pB, pD], [4, 5, 6], "c2"⟩]

/-- The graph built from `specExampleBatch`. -/
def specExampleGraph : Graph := (build specExampleBatch).toOption.getD graphDefault

/-- A single cluster touching `pA` twice, contributing two values to it. -/
def dupValueBatch : List Cluster := [⟨[pA, pB, pA], [1, 2, 3], "c"⟩]

/-- The graph built from `dupValueBatch`. -/
def dupValueGraph : Graph := (build dupValueBatch).toOption.getD graphDefault

/-- A one-node graph (scale index 0, time index 5) for the span witness. -/
def spanWitnessGraph : Graph :=
  ⟨⟨[], fun _ => []⟩, fun _ => none, fun _ => false, [⟨0, 5, 0⟩]⟩

/-- A grid with a single unit timescale (`sampling_freq = 1`, exponent 0). -/
def unitGrid : Grid := ⟨1, 0, 0⟩

/-- A batch consisting of one empty cluster. -/
def emptyClusterBatch : List Cluster := [⟨[], [], "empty"⟩]

/-- A batch with one single-point cluster at time index 5, for the shift
witness. -/
def shiftWitnessBatch : List Cluster := [⟨[⟨0, 5, 1⟩], [2], "c"⟩]

/-- The unvisited set only ever shrinks through the ancestor loop. -/
theorem ancLoop_snd_sublist
    (visit : GridPoint → List GridPoint → List GridPoint × List GridPoint)
    (hv : ∀ a u, List.Sublist (visit a u).2 u) :
    ∀ l unv, List.Sublist (ancLoop visit l unv).2 unv := by
  intro l
  induction l with
  | nil => intro unv; simp [ancLoop]
  | cons a rest ih =>
    intro unv
    by_cases ha : a ∈ unv
    · simp only [ancLoop, if_pos ha]
      exact (ih _).trans ((hv a _).trans (List.erase_sublist a unv))
    · simp only [ancLoop, if_neg ha]
      exact ih unv

/-- The unvisited set only ever shrinks through `sorted_ancestors`. -/
theorem visitF_snd_sublist (g : AncMap) :
    ∀ f node unv, List.Sublist (visitF g f node unv).2 unv := by
  intro f
  induction f with
  | zero => intro node unv; simp [visitF]
  | succ f ih =>
    intro node unv
    simp only [visitF]
    exact ancLoop_snd_sublist _ ih _ _

/-- The ancestor loop emits exactly the nodes it removes from the
unvisited set, each exactly once. -/
theorem ancLoop_mem
    (visit : GridPoint → List GridPoint → List GridPoint × List GridPoint)
    (hsub : ∀ a u, List.Sublist (visit a u).2 u)
    (hv : ∀ a u, u.Nodup → a ∉ u →
      ((visit a u).1.Nodup ∧
        ∀ x, x ∈ (visit a u).1 ↔ (x = a ∨ (x ∈ u ∧ x ∉ (visit a u).2)))) :
    ∀ l unv, unv.Nodup →
      ((ancLoop visit l unv).1.Nodup ∧
        ∀ x, x ∈ (ancLoop visit l unv).1 ↔ (x ∈ unv ∧ x ∉ (ancLoop visit l unv).2)) := by
  intro l
  induction l with
  | nil =>
    intro unv hnd
    refine ⟨by simp [ancLoop], fun x => ?_⟩
    simp [ancLoop]
  | cons a rest ih =>
    intro unv hnd
    by_cases ha : a ∈ unv
    case neg =>
      simp only [ancLoop, if_neg ha]
      exact ih unv hnd
    · simp only [ancLoop, if_pos ha]
      have hae : a ∉ unv.erase a := fun hmem => (hnd.mem_erase_iff.mp hmem).1 rfl
      obtain ⟨n1, m1⟩ := hv a (unv.erase a) (hnd.erase a) hae
      have s1 : List.Sublist (visit a (unv.erase a)).2 (unv.erase a) := hsub a _
      obtain ⟨n2, m2⟩ := ih (visit a (unv.erase a)).2 (((hnd.erase a)).sublist s1)
      have s2 : List.Sublist (ancLoop visit rest (visit a (unv.erase a)).2).2
          (visit a (unv.erase a)).2 := ancLoop_snd_sublist visit hsub rest _
      constructor
      · refine n1.append n2 ?_
        intro x hx1 hx2
        obtain ⟨hxp, _⟩ := (m2 x).mp hx2
        rcases (m1 x).mp hx1 with rfl | ⟨_, hnp⟩
        · exact hae (s1.subset hxp)
        · exact hnp hxp
      · intro x
        constructor
        · intro hx
          rcases List.mem_append.mp hx with hx1 | hx2
          · rcases (m1 x).mp hx1 with rfl | ⟨hxe, hxp⟩
            · exact ⟨ha, fun hc => hae (s1.subset (s2.subset hc))⟩
            · exact ⟨List.mem_of_mem_erase hxe, fun hc => hxp (s2.subset hc)⟩
          · obtain ⟨hxp, hxn⟩ := (m2 x).mp hx2
            exact ⟨List.mem_of_mem_erase (s1.subset hxp), hxn⟩
        · rintro ⟨hxu, hxn⟩
          by_cases hxa : x = a
          · subst hxa
            exact List.mem_append.mpr (Or.inl ((m1 x).mpr (Or.inl rfl)))
          · have hxe : x ∈ unv.erase a := hnd.mem_erase_iff.mpr ⟨hxa, hxu⟩
            by_cases hx1 : x ∈ (visit a (unv.erase a)).2
            · exact List.mem_append.mpr (Or.inr ((m2 x).mpr ⟨hx1, hxn⟩))
            · exact List.mem_append.mpr (Or.inl ((m1 x).mpr (Or.inr ⟨hxe, hx1⟩)))

/-- `sorted_ancestors(node)` emits `node` together with exactly the nodes
it removes from the unvisited set, each exactly once. -/
theorem visitF_mem (g : AncMap) :
    ∀ f node unv, unv.Nodup → node ∉ unv →
      ((visitF g f node unv).1.Nodup ∧
        ∀ x, x ∈ (visitF g f node unv).1 ↔
          (x = node ∨ (x ∈ unv ∧ x ∉ (visitF g f node unv).2))) := by
  intro f
  induction f with
  | zero =>
    intro node unv _ _
    refine ⟨by simp [visitF], fun x => ?_⟩
    simp [visitF]
  | succ f ih =>
    intro node unv hnd hnode
    simp only [visitF]
    obtain ⟨n1, m1⟩ := ancLoop_mem (visitF g f) (visitF_snd_sublist g f) (ih) (g.anc node) unv hnd
    constructor
    · refine n1.append (List.nodup_singleton node) ?_
      intro x hx1 hx2
      obtain ⟨hxu, _⟩ := (m1 x).mp hx1
      rcases List.mem_singleton.mp hx2 with rfl
      exact hnode hxu
    · intro x
      rw [List.mem_append, List.mem_singleton, m1 x]
      tauto

/-- The outer `while` loop emits exactly the unvisited nodes, each exactly
once, whenever its fuel covers the size of the unvisited set. -/
theorem outerLoopF_mem (g : AncMap) :
    ∀ f unv, unv.Nodup → unv.length ≤ f →
      ((outerLoopF g f unv).Nodup ∧ ∀ x, x ∈ outerLoopF g f unv ↔ x ∈ unv) := by
  intro f
  induction f with
  | zero =>
    intro unv _ hle
    have : unv = [] := List.length_eq_zero.mp (Nat.le_zero.mp hle)
    subst this
    simp [outerLoopF]
  | succ f ih =>
    intro unv hnd hle
    cases unv with
    | nil => simp [outerLoopF]
    | cons y rest =>
      simp only [outerLoopF]
      have hy : y ∉ rest := (List.nodup_cons.mp hnd).1
      have hr : rest.Nodup := (List.nodup_cons.mp hnd).2
      obtain ⟨n1, m1⟩ := visitF_mem g (rest.length + 1) y rest hr hy
      have s1 : List.Sublist (visitF g (rest.length + 1) y rest).2 rest :=
        visitF_snd_sublist g _ y rest
      obtain ⟨n2, m2⟩ := ih (visitF g (rest.length + 1) y rest).2 (hr.sublist s1)
        (s1.length_le.trans (Nat.succ_le_succ_iff.mp hle))
      constructor
      · refine n1.append n2 ?_
        intro x hx1 hx2
        have hxp : x ∈ (visitF g (rest.length + 1) y rest).2 := (m2 x).mp hx2
        rcases (m1 x).mp hx1 with rfl | ⟨_, hnp⟩
        · exact hy (s1.subset hxp)
        · exact hnp hxp
      · intro x
        rw [List.mem_append, m1 x, m2 x, List.mem_cons]
        constructor
        · rintro ((rfl | ⟨hxr, _⟩) | hxp)
          · exact Or.inl rfl
          · exact Or.inr hxr
          · exact Or.inr (s1.subset hxp)
        · rintro (rfl | hxr)
          · exact Or.inl (Or.inl rfl)
          · by_cases hxp : x ∈ (visitF g (rest.length + 1) y rest).2
            · exact Or.inr hxp
            · exact Or.inl (Or.inr ⟨hxr, hxp⟩)

/-- `_topological_sorting` terminates on every ancestor map (it is a total
function) and its output lists every key of the dictionary exactly once. -/
theorem topologicalSorting_perm (g : AncMap) :
    List.Perm (topologicalSorting g) g.ks.dedup := by
  obtain ⟨hnd, hmem⟩ :=
    outerLoopF_mem g g.ks.dedup.length g.ks.dedup g.ks.nodup_dedup le_rfl
  exact (List.perm_ext_iff_of_nodup hnd g.ks.nodup_dedup).mpr hmem

/-- `topoFrom` splits over list concatenation. -/
theorem topoFrom_append (g : AncMap) :
    ∀ (l1 l2 seen : List GridPoint),
      topoFrom g seen (l1 ++ l2) ↔ (topoFrom g seen l1 ∧ topoFrom g (seen ++ l1) l2) := by
  intro l1
  induction l1 with
  | nil => intro l2 seen; simp [topoFrom]
  | cons x t ih =>
    intro l2 seen
    simp only [List.cons_append, topoFrom, List.append_eq]
    rw [ih]
    have hl : (seen ++ [x]) ++ t = seen ++ x :: t := by simp
    rw [hl, and_assoc]

/-- Walking down a chain of ancestor edges yields transitive reachability. -/
theorem chain_transGen (R : GridPoint → GridPoint → Prop) :
    ∀ (l : List GridPoint) (x a : GridPoint),
      List.Chain' R (x :: l) → a ∈ l → Relation.TransGen R x a := by
  intro l
  induction l with
  | nil => intro x a _ ha; simp at ha
  | cons y t ih =>
    intro x a h ha
    have h1 : R x y := (List.chain'_cons.mp h).1
    have h2 : List.Chain' R (y :: t) := (List.chain'_cons.mp h).2
    rcases List.mem_cons.mp ha with rfl | hat
    · exact Relation.TransGen.single h1
    · exact Relation.TransGen.head h1 (ih y a h2 hat)

/-- Core invariant of the ancestor loop on an acyclic map, relative to the
already-emitted list `E` and the active traversal path `node :: path`:
the emitted block continues a topological order after `E`; every retired
node of the universe `U` is emitted or on the path; and every processed
ancestor ends up retired. -/
theorem ancLoop_topo (g : AncMap) (U : List GridPoint)
    (_hac : AcyclicMap g) (_hcl : ∀ x a, a ∈ g.anc x → a ∈ U) (f : Nat)
    (hv : ∀ node unv E path, unv.length < f → unv.Nodup → node ∉ unv →
      List.Chain' (graphEdge g) (node :: path) → (∀ q ∈ node :: path, q ∉ unv) →
      (∀ x ∈ U, x ∉ unv → (x ∈ E ∨ x ∈ node :: path)) →
      (topoFrom g E (visitF g f node unv).1 ∧
        ∀ x ∈ U, x ∉ (visitF g f node unv).2 →
          (x ∈ E ++ (visitF g f node unv).1 ∨ x ∈ path))) :
    ∀ l unv E node path, unv.length ≤ f → unv.Nodup →
      (∀ a ∈ l, a ∈ g.anc node) →
      List.Chain' (graphEdge g) (node :: path) → (∀ q ∈ node :: path, q ∉ unv) →
      (∀ x ∈ U, x ∉ unv → (x ∈ E ∨ x ∈ node :: path)) →
      (topoFrom g E (ancLoop (visitF g f) l unv).1 ∧
        (∀ x ∈ U, x ∉ (ancLoop (visitF g f) l unv).2 →
          (x ∈ E ++ (ancLoop (visitF g f) l unv).1 ∨ x ∈ node :: path)) ∧
        (∀ a ∈ l, a ∉ (ancLoop (visitF g f) l unv).2)) := by
  intro l
  induction l with
  | nil =>
    intro unv E node path _ _ _ _ _ hret
    refine ⟨by simp [ancLoop, topoFrom], ?_, by simp⟩
    intro x hxU hx
    simp only [ancLoop] at hx
    rcases hret x hxU hx with h | h
    · refine Or.inl ?_
      simpa [ancLoop] using h
    · exact Or.inr h
  | cons a rest ih =>
    intro unv E node path hlen hnd hl hchain hnot hret
    by_cases ha : a ∈ unv
    case neg =>
      simp only [ancLoop, if_neg ha]
      obtain ⟨T, R, N⟩ := ih unv E node path hlen hnd
        (fun a' ha' => hl a' (List.mem_cons_of_mem a ha')) hchain hnot hret
      refine ⟨T, R, ?_⟩
      intro a' ha'
      rcases List.mem_cons.mp ha' with rfl | ha'r
      · exact fun hc =>
          ha ((ancLoop_snd_sublist _ (visitF_snd_sublist g f) rest unv).subset hc)
      · exact N a' ha'r
    case pos =>
      simp only [ancLoop, if_pos ha]
      have hlen_pos : 0 < unv.length := List.length_pos_of_mem ha
      have hlen_e : (unv.erase a).length < f := by
        rw [List.length_erase_of_mem ha]; omega
      have hnd_e : (unv.erase a).Nodup := hnd.erase a
      have ha_e : a ∉ unv.erase a := fun hmem => (hnd.mem_erase_iff.mp hmem).1 rfl
      have hedge : graphEdge g a node := hl a (List.mem_cons_self a rest)
      have hchain_a : List.Chain' (graphEdge g) (a :: node :: path) :=
        List.chain'_cons.mpr ⟨hedge, hchain⟩
      have hnot_a : ∀ q ∈ a :: node :: path, q ∉ unv.erase a := by
        intro q hq
        rcases List.mem_cons.mp hq with rfl | hq2
        · exact ha_e
        · exact fun hc => hnot q hq2 (List.mem_of_mem_erase hc)
      have hret_a : ∀ x ∈ U, x ∉ unv.erase a → (x ∈ E ∨ x ∈ a :: node :: path) := by
        intro x hxU hxe
        by_cases hxa : x = a
        · exact Or.inr (by simp [hxa])
        · have hxu : x ∉ unv := fun hc => hxe (hnd.mem_erase_iff.mpr ⟨hxa, hc⟩)
          rcases hret x hxU hxu with h | h
          · exact Or.inl h
          · exact Or.inr (List.mem_cons_of_mem a h)
      obtain ⟨T1, R1⟩ := hv a (unv.erase a) E (node :: path)
        hlen_e hnd_e ha_e hchain_a hnot_a hret_a
      have s1 : List.Sublist (visitF g f a (unv.erase a)).2 (unv.erase a) :=
        visitF_snd_sublist g f a _
      have s1u : List.Sublist (visitF g f a (unv.erase a)).2 unv :=
        s1.trans (List.erase_sublist a unv)
      obtain ⟨T2, R2, N2⟩ := ih (visitF g f a (unv.erase a)).2 (E ++ (visitF g f a (unv.erase a)).1)
        node path
        (le_of_lt (lt_of_le_of_lt s1.length_le hlen_e))
        (hnd_e.sublist s1)
        (fun a' ha' => hl a' (List.mem_cons_of_mem a ha'))
        hchain
        (fun q hq hc => hnot q hq (s1u.subset hc))
        R1
      have s2 : List.Sublist (ancLoop (visitF g f) rest (visitF g f a (unv.erase a)).2).2
          (visitF g f a (unv.erase a)).2 :=
        ancLoop_snd_sublist _ (visitF_snd_sublist g f) rest _
      refine ⟨?_, ?_, ?_⟩
      · exact (topoFrom_append g _ _ _).mpr ⟨T1, T2⟩
      · intro x hxU hx
        rcases R2 x hxU hx with h | h
        · exact Or.inl (by simpa [List.append_assoc] using h)
        · exact Or.inr h
      · intro a' ha'
        rcases List.mem_cons.mp ha' with rfl | ha'r
        · exact fun hc => ha_e (s1.subset (s2.subset hc))
        · exact N2 a' ha'r

/-- Core invariant of `sorted_ancestors` on an acyclic map: the emitted
block continues a topological order after `E`, and every retired node of
the universe is emitted or on the remaining path. -/
theorem visitF_topo (g : AncMap) (U : List GridPoint)
    (hac : AcyclicMap g) (hcl : ∀ x a, a ∈ g.anc x → a ∈ U) :
    ∀ f node unv E path, unv.length < f → unv.Nodup → node ∉ unv →
      List.Chain' (graphEdge g) (node :: path) → (∀ q ∈ node :: path, q ∉ unv) →
      (∀ x ∈ U, x ∉ unv → (x ∈ E ∨ x ∈ node :: path)) →
      (topoFrom g E (visitF g f node unv).1 ∧
        ∀ x ∈ U, x ∉ (visitF g f node unv).2 →
          (x ∈ E ++ (visitF g f node unv).1 ∨ x ∈ path)) := by
  intro f
  induction f with
  | zero =>
    intro node unv E path hlen
    exact absurd hlen (Nat.not_lt_zero _)
  | succ f ih =>
    intro node unv E path hlen hnd hnode hchain hnot hret
    simp only [visitF]
    obtain ⟨T1, R1, N1⟩ := ancLoop_topo g U hac hcl f ih (g.anc node) unv E node path
      (Nat.lt_succ_iff.mp hlen) hnd (fun a h => h) hchain hnot hret
    constructor
    · refine (topoFrom_append g _ _ _).mpr ⟨T1, ?_⟩
      simp only [topoFrom, and_true]
      intro a haa
      have haU : a ∈ U := hcl node a haa
      rcases R1 a haU (N1 a haa) with h | h
      · exact h
      · exfalso
        rcases List.mem_cons.mp h with heq | hpath
        · exact hac node (Relation.TransGen.single (heq ▸ haa))
        · exact hac node
            ((chain_transGen (graphEdge g) path node a hchain hpath).trans
              (Relation.TransGen.single haa))
    · intro x hxU hx
      rcases R1 x hxU hx with h | h
      · rcases List.mem_append.mp h with h1 | h2
        · exact Or.inl (List.mem_append.mpr (Or.inl h1))
        · exact Or.inl (List.mem_append.mpr (Or.inr (List.mem_append.mpr (Or.inl h2))))
      · rcases List.mem_cons.mp h with rfl | hp
        · exact Or.inl (List.mem_append.mpr (Or.inr (List.mem_append.mpr (Or.inr (List.mem_singleton.mpr rfl)))))
        · exact Or.inr hp

/-- Core invariant of the outer `while` loop: given that every retired
universe node is already emitted, the loop's output continues a
topological order after `E`. -/
theorem outerLoopF_topo (g : AncMap) (U : List GridPoint)
    (hac : AcyclicMap g) (hcl : ∀ x a, a ∈ g.anc x → a ∈ U) :
    ∀ f unv E, unv.length ≤ f → unv.Nodup →
      (∀ x ∈ U, x ∉ unv → x ∈ E) →
      topoFrom g E (outerLoopF g f unv) := by
  intro f
  induction f with
  | zero => intro unv E _ _ _; simp [outerLoopF, topoFrom]
  | succ f ih =>
    intro unv E hlen hnd hret
    cases unv with
    | nil => simp [outerLoopF, topoFrom]
    | cons y rest =>
      simp only [outerLoopF]
      have hy : y ∉ rest := (List.nodup_cons.mp hnd).1
      have hr : rest.Nodup := (List.nodup_cons.mp hnd).2
      obtain ⟨T1, R1⟩ := visitF_topo g U hac hcl (rest.length + 1) y rest E []
        (Nat.lt_succ_self _) hr hy (List.chain'_singleton y)
        (by intro q hq; rcases List.mem_singleton.mp hq with rfl; exact hy)
        (by
          intro x hxU hxr
          by_cases hxy : x = y
          · exact Or.inr (by simp [hxy])
          · refine Or.inl (hret x hxU ?_)
            intro hc
            rcases List.mem_cons.mp hc with rfl | hcr
            · exact hxy rfl
            · exact hxr hcr)
      have s1 : List.Sublist (visitF g (rest.length + 1) y rest).2 rest :=
        visitF_snd_sublist g _ y rest
      refine (topoFrom_append g _ _ _).mpr ⟨T1, ?_⟩
      refine ih (visitF g (rest.length + 1) y rest).2 (E ++ (visitF g (rest.length + 1) y rest).1)
        (s1.length_le.trans (Nat.succ_le_succ_iff.mp hlen)) (hr.sublist s1) ?_
      intro x hxU hx
      rcases R1 x hxU hx with h | h
      · exact h
      · exact absurd h (List.not_mem_nil x)

/-- `_topological_sorting` of an acyclic ancestor map whose recorded
ancestors are all keys produces a valid topological order. -/
theorem topologicalSorting_topo (g : AncMap)
    (hac : AcyclicMap g) (hcl : ∀ x a, a ∈ g.anc x → a ∈ g.ks) :
    IsTopoOrder g (topologicalSorting g) := by
  unfold IsTopoOrder topologicalSorting
  have h := outerLoopF_topo g g.ks.dedup hac
    (fun x a ha => List.mem_dedup.mpr (hcl x a ha))
    g.ks.dedup.length g.ks.dedup [] le_rfl g.ks.nodup_dedup
    (fun x hx hnx => absurd hx hnx)
  simpa using h

/-- Dictionary assignment never removes keys. -/
theorem setAnc_ks_subset (g : AncMap) (p : GridPoint) (s : List GridPoint) :
    ∀ x ∈ g.ks, x ∈ (setAnc g p s).ks := by
  intro x hx
  simp only [setAnc]
  by_cases hp : p ∈ g.ks
  · simpa [hp] using hx
  · simp [hp, List.mem_append]
    exact Or.inl hx

/-- Dictionary assignment registers the assigned key. -/
theorem setAnc_ks_self (g : AncMap) (p : GridPoint) (s : List GridPoint) :
    p ∈ (setAnc g p s).ks := by
  simp only [setAnc]
  by_cases hp : p ∈ g.ks
  · simp only [if_pos hp]
    exact hp
  · simp [hp]

/-- Edge insertion never removes keys. -/
theorem addAnc_ks_subset (g : AncMap) (n a : GridPoint) :
    ∀ x ∈ g.ks, x ∈ (addAnc g n a).ks :=
  setAnc_ks_subset g n _

/-- Edge insertion registers the target node as a key. -/
theorem addAnc_ks_self (g : AncMap) (n a : GridPoint) :
    n ∈ (addAnc g n a).ks :=
  setAnc_ks_self g n _

/-- Resetting the first point's ancestor set preserves `EdgesSub`. -/
theorem edgesSub_setAnc_nil (cs : List Cluster) (g : AncMap) (p : GridPoint)
    (h : EdgesSub cs g) : EdgesSub cs (setAnc g p []) := by
  intro a x hx
  simp only [setAnc] at hx
  by_cases hxp : x = p
  · simp [hxp] at hx
  · rw [if_neg hxp] at hx
    exact h a x hx

/-- Adding an adjacent-pair edge preserves `EdgesSub`. -/
theorem edgesSub_addAnc (cs : List Cluster) (g : AncMap) (n a0 : GridPoint)
    (h : EdgesSub cs g) (he : unionEdge cs a0 n) : EdgesSub cs (addAnc g n a0) := by
  intro a x hx
  simp only [addAnc, setAnc] at hx
  by_cases hxn : x = n
  · rw [if_pos hxn] at hx
    subst hxn
    by_cases ha0 : a0 ∈ g.anc x
    · rw [if_pos ha0] at hx
      exact h a x hx
    · rw [if_neg ha0] at hx
      rcases List.mem_append.mp hx with h1 | h2
      · exact h a x h1
      · rcases List.mem_singleton.mp h2 with rfl
        exact he
  · rw [if_neg hxn] at hx
    exact h a x hx

/-- Recording a list of adjacent pairs preserves `EdgesSub` when each pair
is an unioned edge of the batch. -/
theorem edgesSub_registerEdges (cs : List Cluster) :
    ∀ (prs : List (GridPoint × GridPoint)) (g : AncMap), EdgesSub cs g →
      (∀ pr ∈ prs, unionEdge cs pr.1 pr.2) → EdgesSub cs (registerEdges g prs) := by
  intro prs
  induction prs with
  | nil => intro g h _; simpa [registerEdges] using h
  | cons pr rest ih =>
    intro g h hprs
    obtain ⟨a, n⟩ := pr
    simp only [registerEdges]
    exact ih (addAnc g n a)
      (edgesSub_addAnc cs g n a h (hprs (a, n) (List.mem_cons_self _ _)))
      (fun pr' hpr' => hprs pr' (List.mem_cons_of_mem _ hpr'))

/-- One cluster iteration preserves `EdgesSub` for any batch containing
that cluster. -/
theorem edgesSub_processCluster (cs : List Cluster) (st st' : BuildState) (c : Cluster)
    (hc : c ∈ cs) (hp : processCluster st c = .ok st')
    (h : EdgesSub cs st.graph) : EdgesSub cs st'.graph := by
  unfold processCluster at hp
  cases hpts : c.grid_points with
  | nil =>
    rw [hpts] at hp
    simp only [Except.ok.injEq] at hp
    rw [← hp]
    exact h
  | cons p0 rest =>
    rw [hpts] at hp
    simp only at hp
    cases hln : (match rest.getLast? with
        | some q => some q
        | none => st.lastNode) with
    | none => rw [hln] at hp; exact absurd hp (by simp)
    | some n =>
      rw [hln] at hp
      simp only [Except.ok.injEq] at hp
      have hgr : st'.graph = registerEdges (setAnc st.graph p0 []) ((p0 :: rest).zip rest) := by
        rw [← hp]
      rw [hgr]
      refine edgesSub_registerEdges cs _ _ (edgesSub_setAnc_nil cs st.graph p0 h) ?_
      intro pr hpr
      exact ⟨c, hc, by rw [adjPairs, hpts]; simpa using hpr⟩

/-- The whole cluster fold preserves `EdgesSub`. -/
theorem edgesSub_fold (cs : List Cluster) :
    ∀ (clusters : List Cluster) (st st' : BuildState),
      (∀ c ∈ clusters, c ∈ cs) →
      clusters.foldlM processCluster st = .ok st' →
      EdgesSub cs st.graph → EdgesSub cs st'.graph := by
  intro clusters
  induction clusters with
  | nil =>
    intro st st' _ hp h
    simp only [List.foldlM_nil] at hp
    cases hp
    exact h
  | cons c rest ih =>
    intro st st' hmem hp h
    rw [List.foldlM_cons] at hp
    cases hpc : processCluster st c with
    | error e => rw [hpc] at hp; exact Except.noConfusion hp
    | ok st1 =>
      rw [hpc] at hp
      have hp' : rest.foldlM processCluster st1 = .ok st' := hp
      exact ih st1 st' (fun c' hc' => hmem c' (List.mem_cons_of_mem _ hc'))
        hp' (edgesSub_processCluster cs st st1 c (hmem c (List.mem_cons_self _ _)) hpc h)

/-- Resetting a first point's ancestor set to empty preserves `AncInKeys`. -/
theorem ancInKeys_setAnc_nil (g : AncMap) (p : GridPoint)
    (h : AncInKeys g) : AncInKeys (setAnc g p []) := by
  intro x a hx
  simp only [setAnc] at hx
  by_cases hxp : x = p
  · simp [hxp] at hx
  · rw [if_neg hxp] at hx
    exact setAnc_ks_subset g p [] a (h x a hx)

/-- Adding an edge whose ancestor endpoint is already a key preserves
`AncInKeys`. -/
theorem ancInKeys_addAnc (g : AncMap) (n a0 : GridPoint)
    (h : AncInKeys g) (ha0 : a0 ∈ g.ks) : AncInKeys (addAnc g n a0) := by
  intro x a hx
  simp only [addAnc, setAnc] at hx
  by_cases hxn : x = n
  · rw [if_pos hxn] at hx
    by_cases hmem : a0 ∈ g.anc n
    · rw [if_pos hmem] at hx
      exact addAnc_ks_subset g n a0 a (h n a hx)
    · rw [if_neg hmem] at hx
      rcases List.mem_append.mp hx with h1 | h2
      · exact addAnc_ks_subset g n a0 a (h n a h1)
      · have heq : a = a0 := List.mem_singleton.mp h2
        rw [heq]
        exact addAnc_ks_subset g n a0 a0 ha0
  · rw [if_neg hxn] at hx
    exact addAnc_ks_subset g n a0 a (h x a hx)

/-- Recording the chain of adjacent pairs of a cluster, starting from a
point that is already a key, preserves `AncInKeys` (each pair's ancestor
is the previous pair's node, hence already a key). -/
theorem ancInKeys_registerEdges :
    ∀ (tail : List GridPoint) (g : AncMap) (q : GridPoint),
      AncInKeys g → q ∈ g.ks →
      AncInKeys (registerEdges g ((q :: tail).zip tail)) := by
  intro tail
  induction tail with
  | nil => intro g q h _; simpa [registerEdges] using h
  | cons r rs ih =>
    intro g q h hq
    simp only [List.zip_cons_cons, registerEdges]
    exact ih (addAnc g r q) r (ancInKeys_addAnc g r q h hq) (addAnc_ks_self g r q)

/-- One cluster iteration preserves `AncInKeys`. -/
theorem ancInKeys_processCluster (st st' : BuildState) (c : Cluster)
    (hp : processCluster st c = .ok st')
    (h : AncInKeys st.graph) : AncInKeys st'.graph := by
  unfold processCluster at hp
  cases hpts : c.grid_points with
  | nil =>
    rw [hpts] at hp
    simp only [Except.ok.injEq] at hp
    rw [← hp]
    exact h
  | cons p0 rest =>
    rw [hpts] at hp
    simp only at hp
    cases hln : (match rest.getLast? with
        | some q => some q
        | none => st.lastNode) with
    | none => rw [hln] at hp; exact absurd hp (by simp)
    | some n =>
      rw [hln] at hp
      simp only [Except.ok.injEq] at hp
      have hgr : st'.graph = registerEdges (setAnc st.graph p0 []) ((p0 :: rest).zip rest) := by
        rw [← hp]
      rw [hgr]
      exact ancInKeys_registerEdges rest (setAnc st.graph p0 []) p0
        (ancInKeys_setAnc_nil st.graph p0 h) (setAnc_ks_self st.graph p0 [])

/-- The whole cluster fold preserves `AncInKeys`. -/
theorem ancInKeys_fold :
    ∀ (clusters : List Cluster) (st st' : BuildState),
      clusters.foldlM processCluster st = .ok st' →
      AncInKeys st.graph → AncInKeys st'.graph := by
  intro clusters
  induction clusters with
  | nil =>
    intro st st' hp h
    simp only [List.foldlM_nil] at hp
    cases hp
    exact h
  | cons c rest ih =>
    intro st st' hp h
    rw [List.foldlM_cons] at hp
    cases hpc : processCluster st c with
    | error e => rw [hpc] at hp; exact Except.noConfusion hp
    | ok st1 =>
      rw [hpc] at hp
      exact ih st1 st' hp (ancInKeys_processCluster st st1 c hpc h)

/-- The value-registration loop appends, in order, exactly the values
paired with each occurrence of `p`. -/
theorem registerValues_lookup :
    ∀ (prs : List (GridPoint × Rat)) (vals : GridPoint → List Rat) (p : GridPoint),
      registerValues vals prs p =
        vals p ++ prs.filterMap (fun pv => if pv.1 = p then some pv.2 else none) := by
  intro prs
  induction prs with
  | nil => intro vals p; simp [registerValues]
  | cons pv rest ih =>
    intro vals p
    obtain ⟨q, v⟩ := pv
    simp only [registerValues, List.filterMap_cons]
    rw [ih]
    by_cases hqp : q = p
    · subst hqp
      simp
    · have hpq : ¬ p = q := fun h => hqp h.symm
      simp [hqp, hpq]

/-- One cluster iteration appends exactly that cluster's contributions to
each point's value accumulator. -/
theorem processCluster_vals (st st' : BuildState) (c : Cluster)
    (hp : processCluster st c = .ok st') :
    ∀ p, st'.vals p = st.vals p ++ clusterContribs c p := by
  intro p
  unfold processCluster at hp
  cases hpts : c.grid_points with
  | nil =>
    rw [hpts] at hp
    simp only [Except.ok.injEq] at hp
    rw [← hp]
    simp [clusterContribs, hpts]
  | cons p0 rest =>
    rw [hpts] at hp
    simp only at hp
    cases hln : (match rest.getLast? with
        | some q => some q
        | none => st.lastNode) with
    | none => rw [hln] at hp; exact absurd hp (by simp)
    | some n =>
      rw [hln] at hp
      simp only [Except.ok.injEq] at hp
      have hv : st'.vals = registerValues st.vals ((p0 :: rest).zip c.values) := by
        rw [← hp]
      rw [hv, registerValues_lookup, clusterContribs, hpts]

/-- The whole cluster fold accumulates, per point, the concatenation of
the clusters' contributions in batch order. -/
theorem fold_vals :
    ∀ (clusters : List Cluster) (st st' : BuildState),
      clusters.foldlM processCluster st = .ok st' →
      ∀ p, st'.vals p = st.vals p ++ contribs clusters p := by
  intro clusters
  induction clusters with
  | nil =>
    intro st st' hp p
    simp only [List.foldlM_nil] at hp
    cases hp
    simp [contribs]
  | cons c rest ih =>
    intro st st' hp p
    rw [List.foldlM_cons] at hp
    cases hpc : processCluster st c with
    | error e => rw [hpc] at hp; exact Except.noConfusion hp
    | ok st1 =>
      rw [hpc] at hp
      rw [ih st1 st' hp p, processCluster_vals st st1 c hpc p]
      simp [contribs, List.append_assoc]

/-- Inversion of a successful `build`: the graph's fields come from the
final fold state, and `sorted_list` is the topological sort of its
ancestor map. -/
theorem build_ok_elim (clusters : List Cluster) (gr : Graph)
    (hb : build clusters = .ok gr) :
    ∃ st, clusters.foldlM processCluster buildInit = .ok st ∧
      gr = ⟨st.graph,
        fun p =>
          match st.vals p with
          | [] => none
          | l => some ⟨numpyMean l, numpyStdSq l⟩,
        st.heads,
        topologicalSorting st.graph⟩ := by
  unfold build at hb
  cases hf : clusters.foldlM processCluster buildInit with
  | error e => rw [hf] at hb; exact Except.noConfusion hb
  | ok st =>
    rw [hf] at hb
    simp only [Except.ok.injEq] at hb
    exact ⟨st, rfl, hb.symm⟩

/-- A strictly increasing rank along every adjacent-pair edge certifies
that the unioned edges of a batch are acyclic. -/
theorem acyclic_of_rank (clusters : List Cluster) (r : GridPoint → Nat)
    (h : ∀ c ∈ clusters, ∀ pr ∈ adjPairs c, r pr.1 < r pr.2) :
    AcyclicClusters clusters := by
  have key : ∀ x y, Relation.TransGen (unionEdge clusters) x y → r x < r y := by
    intro x y hxy
    induction hxy with
    | single h1 =>
      obtain ⟨c, hc, hpr⟩ := h1
      exact h c hc _ hpr
    | tail _ h2 ih =>
      obtain ⟨c, hc, hpr⟩ := h2
      exact ih.trans (h c hc _ hpr)
  intro x hx
  exact lt_irrefl _ (key x x hx)

/-- Edge containment transfers acyclicity of the unioned batch edges to
the built ancestor map. -/
theorem acyclicMap_of_clusters (clusters : List Cluster) (g : AncMap)
    (hsub : EdgesSub clusters g) (hac : AcyclicClusters clusters) :
    AcyclicMap g := by
  intro x hx
  exact hac x (Relation.TransGen.mono (fun a b hab => hsub a b hab) hx)

/-- Folding `max` over naturals starting from `0` equals starting from the
first element. -/
theorem maxN_zero_cons (x : Nat) (l : List Nat) : maxN 0 (x :: l) = maxN x l := by
  simp [maxN, max_eq_right (Nat.zero_le x)]

/-- The fold of `max` over a nonempty list of naturals is attained by one
of its elements. -/
theorem maxN_mem : ∀ (l : List Nat) (x : Nat), maxN x l = x ∨ maxN x l ∈ l := by
  intro l
  induction l with
  | nil => intro x; simp [maxN]
  | cons y t ih =>
    intro x
    have h : maxN x (y :: t) = maxN (max x y) t := by simp [maxN]
    rw [h]
    rcases ih (max x y) with h1 | h1
    · rcases max_choice x y with h2 | h2
      · exact Or.inl (h1.trans h2)
      · refine Or.inr ?_
        rw [h1, h2]
        exact List.mem_cons_self y t
    · exact Or.inr (List.mem_cons_of_mem y h1)

/-- A timescale lookup in range returns the list entry. -/
theorem tsGet_ok (grid : Grid) (i : Nat) (h : i < grid.timescales.length) :
    tsGet grid i = .ok (grid.timescales.getD i 0) := by
  unfold tsGet
  rw [List.getElem?_eq_getElem h]
  simp [List.getD, List.getElem?_eq_getElem h]

/-- The time generator succeeds and computes the pointwise products when
every scale index is in range. -/
theorem timesList_ok (grid : Grid) :
    ∀ (l : List GridPoint), (∀ p ∈ l, p.scale_index < grid.timescales.length) →
      timesList grid l =
        .ok (l.map (fun p => (p.time_index : Rat) * grid.timescales.getD p.scale_index 0)) := by
  intro l
  induction l with
  | nil => intro _; simp [timesList]
  | cons p ps ih =>
    intro h
    have hp : p.scale_index < grid.timescales.length := h p (List.mem_cons_self _ _)
    simp only [timesList, tsGet_ok grid _ hp,
      ih (fun q hq => h q (List.mem_cons_of_mem _ hq)), List.map_cons]

/-- Claim C1 (code_bug evidence): on the specification's own cycle example
(cluster1 `[A,B]`, cluster2 `[B,A]`) the build raises no structural error at
all — the first-point reset `self.graph[cluster_points[0]] = set()` erases
the `B → A ancestry`, the union becomes acyclic, and the sort returns
`[B, A]`; and on a batch whose recorded edges do form a genuine cycle
(`[A,B,A]`), the sort still raises nothing and silently returns the
non-topological order `[B, A]` even though `A` is a recorded ancestor of
`B`.  The topological sort has no cycle detection. -/
theorem build_cycle_example_no_error :
    (build cyclePairBatch).map Graph.sorted_list = .ok [pB, pA] ∧
    (build cyclePairBatch).map (fun g => g.graph.anc pB) = .ok [] ∧
    (build cycleTriBatch).map (fun g => (g.sorted_list, g.graph.anc pB)) =
      .ok ([pB, pA], [pA]) := by
  refine ⟨?_, ?_, ?_⟩ <;> rfl

/-- Claim C2 (code_bug evidence): in the batch `[[A,B],[B,C]]` the point `B`
accumulates ancestor `A` from the first cluster and is then the first point
of the second cluster; `Graph.__init__` resets its ancestor set to empty,
whereas the union of predecessor contributions described by the
specification is `[A]`. -/
theorem build_first_point_reset_drops_ancestors :
    (build overwriteBatch).map (fun g => g.graph.anc pB) = .ok [] ∧
    claimAncestors overwriteBatch pB = [pA] := by
  exact ⟨rfl, rfl⟩

/-- Claim C3: for every batch whose unioned adjacent-pair edges are acyclic,
a successful build's `sorted_list` is a valid topological order of the
built ancestor map (every recorded ancestor of a node appears strictly
earlier) and lists every key of the ancestor map exactly once. -/
theorem build_sorted_list_topological (clusters : List Cluster) (gr : Graph)
    (hb : build clusters = .ok gr) (hac : AcyclicClusters clusters) :
    IsTopoOrder gr.graph gr.sorted_list ∧
    List.Perm gr.sorted_list gr.graph.ks.dedup := by
  obtain ⟨st, hf, rfl⟩ := build_ok_elim clusters gr hb
  have hinit_e : EdgesSub clusters buildInit.graph := by
    intro a x hx
    simp [buildInit] at hx
  have hinit_k : AncInKeys buildInit.graph := by
    intro x a hx
    simp [buildInit] at hx
  have hes : EdgesSub clusters st.graph :=
    edgesSub_fold clusters clusters buildInit st (fun c hc => hc) hf hinit_e
  have hkeys : AncInKeys st.graph :=
    ancInKeys_fold clusters buildInit st hf hinit_k
  exact ⟨topologicalSorting_topo st.graph (acyclicMap_of_clusters clusters st.graph hes hac) hkeys,
    topologicalSorting_perm st.graph⟩

/-- Claim C3 witness: the specification's example batch `[A,B,C]`, `[A,B,D]`
builds successfully, is acyclic (time index is a strictly increasing rank
along every adjacent pair), and the theorem applies. -/
theorem build_sorted_list_topological_witness :
    IsTopoOrder specExampleGraph.graph specExampleGraph.sorted_list ∧
    List.Perm specExampleGraph.sorted_list specExampleGraph.graph.ks.dedup :=
  build_sorted_list_topological specExampleBatch specExampleGraph rfl
    (acyclic_of_rank specExampleBatch (fun p => p.time_index.toNat) (by decide))

/-- Claim C4 (code_bug evidence): building from a single cluster with
exactly one grid point raises `NameError` — the inner edge loop never runs,
so `self.head_nodes.add(node)` reads an unbound variable — instead of
producing the one-node graph with that node as a head node. -/
theorem build_single_point_cluster_raises :
    build [⟨[pA], [1], "c"⟩] = .error PyErr.nameError := by
  rfl

/-- Claim C5: after a successful build, every point that received values
(in batch order, including duplicate occurrences inside one cluster) has
`point_info` equal to the mean and population variance of exactly those
values.  Equality of the standard deviations is stated on their squares,
which is equivalent since both are non-negative. -/
theorem build_point_info_stats (clusters : List Cluster) (p : GridPoint) (gr : Graph)
    (hb : build clusters = .ok gr) (hne : contribs clusters p ≠ []) :
    gr.point_info p =
      some ⟨numpyMean (contribs clusters p), numpyStdSq (contribs clusters p)⟩ := by
  obtain ⟨st, hf, rfl⟩ := build_ok_elim clusters gr hb
  have hv : st.vals p = contribs clusters p := by
    have h := fold_vals clusters buildInit st hf p
    simpa [buildInit] using h
  dsimp only
  rw [hv]
  cases hc : contribs clusters p with
  | nil => exact absurd hc hne
  | cons v vs => rfl

/-- Claim C5 witness: in the single cluster `[A,B,A]` with values
`[1,2,3]`, the point `A` receives the two values `[1,3]` and the stored
statistics are their mean and population variance. -/
theorem build_point_info_stats_witness :
    dupValueGraph.point_info pA =
      some ⟨numpyMean (contribs dupValueBatch pA), numpyStdSq (contribs dupValueBatch pA)⟩ :=
  build_point_info_stats dupValueBatch pA dupValueGraph rfl (by decide)

/-- Claim C8 (code_bug evidence): a cluster with two grid points but a
single value is accepted without any error — no length check exists in
`Cluster.__new__` or `Graph.__init__` — and the value pairing is silently
truncated by `izip`: the edge `A → B` is still recorded, but `B` receives
no value and therefore has no statistics entry. -/
theorem build_mismatched_cluster_truncates :
    (build mismatchedBatch).map (fun g => (g.graph.anc pB, g.point_info pB)) =
      .ok ([pA], none) := by
  rfl

/-- Claim C9: `_topological_sorting` terminates on every ancestor map —
cyclic ones included — and its output is a permutation of the distinct
keys of the map: every node is removed from the unvisited set and emitted
exactly once, even when the result is not a valid topological order. -/
theorem topological_sorting_always_permutation :
    ∀ g : AncMap, List.Perm (topologicalSorting g) g.ks.dedup :=
  topologicalSorting_perm

/-- Claim C10: `reject_pixels_at_zero_freq` raises `TypeError` on every
cluster: it subscripts the `grid_points` tuple with a numpy boolean mask,
which Python tuples do not support (and the fallback two-argument
`Cluster(...)` call would lack the required `metadata` argument). -/
theorem reject_pixels_always_raises :
    ∀ c : Cluster, reject_pixels_at_zero_freq c = .error PyErr.typeError := by
  intro c
  rfl

/-- Claim C6: for every graph and grid whose timescales cover all node
scale indices, `span` returns
`floor(timeMax / timescales[scaleIndexMax]) + 1` (with `scaleIndexMax` the
maximum scale index and `timeMax` the maximum of
`timeIndex * timescales[scaleIndex]` over the nodes), and fails with the
`max`-of-empty-sequence `ValueError` on an empty graph. -/
theorem span_spec (g : Graph) (grid : Grid)
    (hr : ∀ p ∈ g.sorted_list, p.scale_index < grid.timescales.length) :
    span g grid =
      if g.sorted_list.isEmpty then .error PyErr.valueError
      else .ok (specSpan g grid) := by
  cases hsl : g.sorted_list with
  | nil => simp [span, hsl]
  | cons n ns =>
    have hn : n.scale_index < grid.timescales.length := by
      refine hr n ?_
      rw [hsl]
      exact List.mem_cons_self _ _
    have hns : ∀ p ∈ ns, p.scale_index < grid.timescales.length := by
      intro p hp
      refine hr p ?_
      rw [hsl]
      exact List.mem_cons_of_mem _ hp
    have hsM : maxN n.scale_index (ns.map GridPoint.scale_index) < grid.timescales.length := by
      rcases maxN_mem (ns.map GridPoint.scale_index) n.scale_index with h1 | h1
      · rw [h1]; exact hn
      · obtain ⟨p, hp, hpe⟩ := List.mem_map.mp h1
        rw [← hpe]
        exact hns p hp
    simp only [span, hsl, tsGet_ok grid n.scale_index hn, timesList_ok grid ns hns,
      tsGet_ok grid _ hsM, List.isEmpty_cons, Bool.false_eq_true, if_false,
      specSpan, specTimeMax, specScaleIndexMax, List.map_cons, maxN_zero_cons]

/-- Claim C6 witness: the graph with the single node
`(scaleIndex 0, timeIndex 5)` on the unit grid (`timescales = [1]`). -/
theorem span_spec_witness :
    span spanWitnessGraph unitGrid =
      if spanWitnessGraph.sorted_list.isEmpty then Except.error PyErr.valueError
      else Except.ok (specSpan spanWitnessGraph unitGrid) :=
  span_spec spanWitnessGraph unitGrid (by decide)

/-- Claim C7 counterexample: the batch `[Cluster([], [], "empty")]` is a
non-empty batch of clusters, yet `shift_clusters_to_zero_index` does not
return shifted clusters — `max` over the empty point generator raises
`ValueError`. -/
theorem shift_empty_cluster_counterexample :
    emptyClusterBatch ≠ [] ∧
    shift_clusters_to_zero_index emptyClusterBatch unitGrid = .error PyErr.valueError := by
  exact ⟨by decide, rfl⟩

/-- Claim C7 (amended): for every batch containing at least one grid point,
with all scale indices in range, `shift_clusters_to_zero_index` returns
clusters with identical values and metadata in which every point keeps its
scale and frequency indices and its time index is decreased by exactly
`shift * 2^(scaleIndexMax - scaleIndex)`, where
`shift = floor(timeMin / timescales[scaleIndexMax])`. -/
theorem shift_clusters_spec (clusters : List Cluster) (grid : Grid)
    (hne : clusters.flatMap Cluster.grid_points ≠ [])
    (hr : ∀ p ∈ clusters.flatMap Cluster.grid_points,
      p.scale_index < grid.timescales.length) :
    shift_clusters_to_zero_index clusters grid =
      .ok (clusters.map (fun c =>
        ⟨c.grid_points.map (fun p =>
          ⟨p.scale_index,
           p.time_index - specShift clusters grid *
             ((2 : Int) ^
               (specScaleIndexMax (clusters.flatMap Cluster.grid_points) - p.scale_index)),
           p.freq_index⟩),
         c.values, c.metadata⟩)) := by
  cases hfl : clusters.flatMap Cluster.grid_points with
  | nil => exact absurd hfl hne
  | cons q qs =>
    have hq : q.scale_index < grid.timescales.length := by
      refine hr q ?_
      rw [hfl]
      exact List.mem_cons_self _ _
    have hqs : ∀ p ∈ qs, p.scale_index < grid.timescales.length := by
      intro p hp
      refine hr p ?_
      rw [hfl]
      exact List.mem_cons_of_mem _ hp
    have hsM : maxN q.scale_index (qs.map GridPoint.scale_index) < grid.timescales.length := by
      rcases maxN_mem (qs.map GridPoint.scale_index) q.scale_index with h1 | h1
      · rw [h1]; exact hq
      · obtain ⟨p, hp, hpe⟩ := List.mem_map.mp h1
        rw [← hpe]
        exact hqs p hp
    simp only [shift_clusters_to_zero_index, hfl, tsGet_ok grid q.scale_index hq,
      timesList_ok grid qs hqs, tsGet_ok grid _ hsM,
      specShift, specTimeMin, specScaleIndexMax, List.map_cons, maxN_zero_cons]

/-- Claim C7 witness: one single-point cluster at
`(scaleIndex 0, timeIndex 5)` on the unit grid — the shift is 5 and the
point moves to time index 0. -/
theorem shift_clusters_spec_witness :
    shift_clusters_to_zero_index shiftWitnessBatch unitGrid =
      .ok (shiftWitnessBatch.map (fun c =>
        ⟨c.grid_points.map (fun p =>
          ⟨p.scale_index,
           p.time_index - specShift shiftWitnessBatch unitGrid *
             ((2 : Int) ^
               (specScaleIndexMax (shiftWitnessBatch.flatMap Cluster.grid_points) -
                 p.scale_index)),
           p.freq_index⟩),
         c.values, c.metadata⟩)) :=
  shift_clusters_spec shiftWitnessBatch unitGrid (by decide) (by decide)
